import Mathlib

/-!
Verification of the core of `pyeo/classification.py`: the chunked pixel
classification pipeline and the training-signature extraction helpers.

Arrays are modelled the way numpy stores them: a flat list of elements plus
a row-major (C-order) shape, with element `(i, j, k)` of a shape-`(d0, d1, d2)`
array living at flat position `i*d1*d2 + j*d2 + k`.  Machine integers are
modelled as `Int`, with explicit `% 256` where the code stores into an
unsigned 8-bit numpy buffer.  Probability values (float32 in the code) are
modelled as `Rat`; the only facts proved about them concern exact sentinel
fills, which float32 represents exactly for the integer sentinels involved.
-/

namespace Pyeo

/-- Models `np.transpose(a, (1, 2, 0))` on a shape-`(d0, d1, d2)` array
followed by the C-order flatten that `np.reshape` performs on the transposed
view: output flat position `t` (of the shape-`(d1, d2, d0)` result) holds the
input element at `(t % (d2*d0) % d0, t / (d2*d0), t % (d2*d0) / d0)`. -/
def transpose120 (a : List Int) (d0 d1 d2 : Nat) : List Int :=
  (List.range (d1 * d2 * d0)).map (fun t =>
    let j := t / (d2 * d0)
    let r := t % (d2 * d0)
    let k := r / d0
    let i := r % d0
    a.getD (i * (d1 * d2) + j * d2 + k) 0)

/-- `reshape_raster_for_ml` (classification.py:549-570): transpose the
`(bands, y, x)` raster to `(y, x, bands)` and reshape to `(x*y, bands)`. -/
def reshape_raster_for_ml (image_array : List Int) (bands y x : Nat) : List Int :=
  transpose120 image_array bands y x

/-- `reshape_ml_out_to_raster` (classification.py:573-593):
`np.reshape(classes, (height, width))`.  A numpy reshape keeps the flat data
and only reinterprets the shape; it raises if the element count differs from
`height * width`, which we model by returning `none`. -/
def reshape_ml_out_to_raster (classes : List Int) (width height : Nat) :
    Option (List Int) :=
  if classes.length = height * width then some classes else none

/-- Element `(r, c)` of a flat row-major `(height, width)` array. -/
def get2 (a : List Int) (width r c : Nat) : Int :=
  a.getD (r * width + c) 0

/-- Models `np.transpose(probs, (1, 0))` on a shape-`(d0, d1)` array followed
by the C-order flatten performed by the subsequent `np.reshape`. -/
def transpose10 (a : List Rat) (d0 d1 : Nat) : List Rat :=
  (List.range (d1 * d0)).map (fun t => a.getD ((t % d0) * d1 + t / d0) 0)

/-- `reshape_prob_out_to_raster` (classification.py:596-618): transpose the
`(n_pixels, n_classes)` table to `(n_classes, n_pixels)` and reshape to
`(classes, height, width)`; the reshape is data-preserving. -/
def reshape_prob_out_to_raster (probs : List Rat) (nPixels nClasses : Nat) :
    List Rat :=
  transpose10 probs nPixels nClasses

/-- The chunk offset used by the classification loop
(classification.py:226-233): `offset = chunk_id * chunk_size` with
`chunk_size = int(n_good_samples / num_chunks)` (the offset is computed
before the last-chunk size adjustment). -/
def chunkOff (n nc k : Nat) : Nat := k * (n / nc)

/-- The chunk size used by the classification loop: `chunk_size` for every
chunk except the last, which absorbs
`chunk_resid = n_good_samples - chunk_size * num_chunks`. -/
def chunkSize (n nc k : Nat) : Nat :=
  if k = nc - 1 then n / nc + (n - n / nc * nc) else n / nc

/-- The chunk plan of `classify_image`: the `for chunk_id in range(num_chunks)`
loop visits exactly the `(offset, size)` pairs listed here. -/
def chunkPlan (n nc : Nat) : List (Nat × Nat) :=
  (List.range nc).map (fun k => (chunkOff n nc k, chunkSize n nc k))

/-- `autochunk` (classification.py:482-495): trial division over
`num_chunks in range(1, pixels)`, returning the first divisor of `pixels`
whose chunk byte size fits in `mem_limit`.  Falls off the loop (Python
`None`) when no such proper divisor exists. -/
def autochunk (pixels bytes_per_pixel mem_limit : Nat) : Option Nat :=
  (List.range' 1 (pixels - 1)).find? (fun k =>
    pixels % k == 0 && decide (pixels / k * bytes_per_pixel < mem_limit))

/-- The validity mask of `classify_image` (classification.py:211-219):
`boo = np.where(image_array[:, 0] != nodata, True, False)` and then, for
each further band, `boo = np.logical_and(boo, image_array[:, band] != nodata)`.
The feature table is flat row-major `(n, bands)`, so sample `i`, band `b`
lives at `i * bands + b`. -/
def computeMask (ft : List Int) (n bands : Nat) (nodata : Int) : List Bool :=
  (List.range (bands - 1)).foldl
    (fun boo b =>
      List.zipWith and boo
        ((List.range n).map (fun i => decide (ft.getD (i * bands + (b + 1)) 0 ≠ nodata))))
    ((List.range n).map (fun i => decide (ft.getD (i * bands) 0 ≠ nodata)))

/-- `good_indices = np.where(boo)[0]` (classification.py:218): the ascending
list of sample indices whose mask entry is true. -/
def goodIndices (mask : List Bool) : List Nat :=
  (List.range mask.length).filter (fun i => mask.getD i false)

/-- The scatter step of `classify_image` (classification.py:246-248):
`class_out_array = np.full((n_samples), nodata)` followed by
`for i, class_val in zip(good_indices, classes): class_out_array[i] = class_val`. -/
def scatterClass (n : Nat) (nodata : Int) (gi : List Nat) (classes : List Int) :
    List Int :=
  (gi.zip classes).foldl (fun arr iv => arr.set iv.1 iv.2)
    (List.replicate n nodata)

/-- The C-style cast numpy performs when a float value is assigned into an
integer-dtype buffer: truncation toward zero (floor for non-negative
values, ceiling for negative ones).  The result is kept in `Rat` because
the truncated integers are what the float32 probability raster finally
receives back. -/
def npIntCast (q : Rat) : Rat :=
  ((if 0 ≤ q then ⌊q⌋ else ⌈q⌉ : Int) : Rat)

/-- The probability scatter step (classification.py:254-256):
`prob_out_array = np.full((n_samples, model.n_classes_), nodata)` followed by
`for i, prob_val in zip(good_indices, probs): prob_out_array[i] = prob_val`.
The `np.full` call omits the `dtype=np.float32` that the `probs` buffer at
line 225 passes, so with the documented integer no-data sentinel the buffer
has integer dtype and each assignment C-casts the float32 probability row
to integers (`npIntCast`, truncation toward zero). -/
def scatterProb (n nClasses : Nat) (nodata : Rat) (gi : List Nat)
    (probs : List (List Rat)) : List (List Rat) :=
  (gi.zip probs).foldl (fun arr iv => arr.set iv.1 (iv.2.map npIntCast))
    (List.replicate n (List.replicate nClasses nodata))

/-- Numpy slice assignment `out_view[:] = vals` into positions
`[off, off + len(vals))` of a buffer. -/
def writeSlice {α : Type} (arr : List α) (off : Nat) (vals : List α) : List α :=
  arr.take off ++ vals ++ arr.drop (off + vals.length)

/-- The chunk loop of `classify_image` (classification.py:223-240):
`classes = np.full(n_good_samples, nodata, dtype=np.ubyte)` — an unsigned
8-bit buffer, so both the prefill and every stored prediction are reduced
modulo 256 — then for each planned chunk,
`out_view[:] = model.predict(chunk_view)`. -/
def runChunksClass (good : List (List Int))
    (predict : List (List Int) → List Int) (nc : Nat) (nodata : Int) :
    List Int :=
  (chunkPlan good.length nc).foldl
    (fun classes c =>
      writeSlice classes c.1
        ((predict ((good.drop c.1).take c.2)).map (fun v => v % 256)))
    (List.replicate good.length (nodata % 256))

/-- The probability chunk loop (classification.py:224-244):
`probs = np.full((n_good_samples, model.n_classes_), nodata, dtype=np.float32)`
then for each planned chunk `prob_view[:, :] = model.predict_proba(chunk_view)`. -/
def runChunksProb (good : List (List Int))
    (predict_proba : List (List Int) → List (List Rat)) (nc nClasses : Nat)
    (nodata : Rat) : List (List Rat) :=
  (chunkPlan good.length nc).foldl
    (fun probs c =>
      writeSlice probs c.1 (predict_proba ((good.drop c.1).take c.2)))
    (List.replicate good.length (List.replicate nClasses nodata))

/-- Row `i` of the flat row-major `(n, bands)` feature table: the band
vector of sample `i`. -/
def ftRow (ft : List Int) (bands i : Nat) : List Int :=
  (ft.drop (i * bands)).take bands

/-- The class half of `classify_image`'s in-memory pipeline
(classification.py:205-250): reshape the raster to a feature table, compute
the validity mask and the good-sample indices, classify the good samples in
chunks, and scatter the results into a full-length buffer pre-filled with
the no-data sentinel (`np.full((n_samples), nodata)`). -/
def classifyCoreClass (img : List Int) (bands h w nc : Nat) (nodata : Int)
    (predict : List (List Int) → List Int) : List Int :=
  let ft := reshape_raster_for_ml img bands h w
  let mask := computeMask ft (h * w) bands nodata
  let gi := goodIndices mask
  let good := gi.map (ftRow ft bands)
  scatterClass (h * w) nodata gi (runChunksClass good predict nc nodata)

/-- The probability half of `classify_image`'s in-memory pipeline
(classification.py:224-262): classify the good samples' probabilities in
chunks, scatter the per-sample probability rows into a buffer pre-filled
with the sentinel (`np.full((n_samples, model.n_classes_), nodata)`), and
reshape the flat `(n_samples, n_classes)` table to `(n_classes, h, w)`. -/
def classifyCoreProb (img : List Int) (bands h w nc nClasses : Nat)
    (nodata : Int) (predict_proba : List (List Int) → List (List Rat)) :
    List Rat :=
  let ft := reshape_raster_for_ml img bands h w
  let mask := computeMask ft (h * w) bands nodata
  let gi := goodIndices mask
  let good := gi.map (ftRow ft bands)
  let probs := runChunksProb good predict_proba nc nClasses (nodata : Rat)
  reshape_prob_out_to_raster
    ((scatterProb (h * w) nClasses (nodata : Rat) gi probs).flatten)
    (h * w) nClasses

/-- The geotransform that `shapefile_to_raster` (classification.py:993-1001)
assigns to the rasterized label grid:
`target_ds.SetGeoTransform((x_min, pixel_width, 0, y_min, 0, pixel_width))`
with `x_min = image_gt[0]`, `pixel_width = image_gt[1]` and
`y_min = image_gt[3] + image_gt[5] * RasterYSize`.  Geotransform components
are modelled exactly over the rationals (the float arithmetic involved is
exact at the integral witness values used below). -/
def shapefileTargetGeoTransform (image_gt : ℚ × ℚ × ℚ × ℚ × ℚ × ℚ)
    (ysize : Nat) : ℚ × ℚ × ℚ × ℚ × ℚ × ℚ :=
  (image_gt.1, image_gt.2.1, 0,
    image_gt.2.2.2.1 + image_gt.2.2.2.2.2 * (ysize : ℚ), 0, image_gt.2.1)

/-- The options list handed to `gdal.RasterizeLayer` by `shapefile_to_raster`
(classification.py:1005): the burn attribute is hardcoded to
`"ATTRIBUTE=CLASS"` — the `.format(attribute)` call is commented out, so
the function's `attribute` parameter is ignored. -/
def rasterizeLayerOptions (attrName : String) : List String :=
  ["ATTRIBUTE=CLASS"]

/-- Index-decoding helper for `transpose120`. -/
theorem transpose120_getD (a : List Int) (d0 d1 d2 t : Nat)
    (ht : t < d1 * d2 * d0) :
    (transpose120 a d0 d1 d2).getD t 0 =
      a.getD ((t % (d2 * d0) % d0) * (d1 * d2) + (t / (d2 * d0)) * d2 +
        t % (d2 * d0) / d0) 0 := by
  unfold transpose120
  have hlen : t < ((List.range (d1 * d2 * d0)).map (fun t =>
      let j := t / (d2 * d0)
      let r := t % (d2 * d0)
      let k := r / d0
      let i := r % d0
      a.getD (i * (d1 * d2) + j * d2 + k) 0)).length := by
    simpa using ht
  rw [List.getD_eq_getElem _ _ hlen]
  simp

/-- The feature-table layout law of `reshape_raster_for_ml`: row `i`,
column `j` of the `(x*y, bands)` output is the input raster's element at
band `j`, row `i / w`, column `i % w`. -/
theorem reshape_raster_for_ml_getD (a : List Int) (bands h w i j : Nat)
    (hi : i < h * w) (hj : j < bands) :
    (reshape_raster_for_ml a bands h w).getD (i * bands + j) 0 =
      a.getD (j * (h * w) + (i / w) * w + i % w) 0 := by
  have hw : 0 < w := by
    rcases Nat.eq_zero_or_pos w with h0 | h0
    · subst h0; simp at hi
    · exact h0
  have hb : 0 < bands := by omega
  have hiw : w * (i / w) + i % w = i := Nat.div_add_mod i w
  have hr0w : i % w < w := Nat.mod_lt i hw
  have ht : i * bands + j = (w * bands) * (i / w) + ((i % w) * bands + j) := by
    calc i * bands + j = (w * (i / w) + i % w) * bands + j := by rw [hiw]
      _ = (w * bands) * (i / w) + ((i % w) * bands + j) := by ring
  have hrem : (i % w) * bands + j < w * bands := by
    calc (i % w) * bands + j < (i % w) * bands + bands := by omega
      _ = (i % w + 1) * bands := by ring
      _ ≤ w * bands := Nat.mul_le_mul_right bands hr0w
  have hM : 0 < w * bands := Nat.mul_pos hw hb
  have hmod : (i * bands + j) % (w * bands) = (i % w) * bands + j := by
    rw [ht, Nat.mul_add_mod, Nat.mod_eq_of_lt hrem]
  have hdiv : (i * bands + j) / (w * bands) = i / w := by
    rw [ht, Nat.mul_add_div hM, Nat.div_eq_of_lt hrem]; omega
  have hmod2 : ((i % w) * bands + j) % bands = j := by
    rw [show (i % w) * bands + j = bands * (i % w) + j by ring,
      Nat.mul_add_mod, Nat.mod_eq_of_lt hj]
  have hdiv2 : ((i % w) * bands + j) / bands = i % w := by
    rw [show (i % w) * bands + j = bands * (i % w) + j by ring,
      Nat.mul_add_div hb, Nat.div_eq_of_lt hj]; omega
  have htlt : i * bands + j < h * w * bands := by
    calc i * bands + j < i * bands + bands := by omega
      _ = (i + 1) * bands := by ring
      _ ≤ h * w * bands := Nat.mul_le_mul_right bands hi
  rw [reshape_raster_for_ml, transpose120_getD a bands h w _ htlt,
    hmod, hdiv, hmod2, hdiv2]

/-- C1: for a raster of shape `(bands, h, w)`, row `i` of the feature table
produced by `reshape_raster_for_ml` is the band vector of the pixel at
`(row = i / w, col = i % w)` with feature order equal to band order, and
`reshape_ml_out_to_raster` accepts a per-sample vector of matching size and
round-trips sample positions exactly: sample `i` of the vector lands at
raster cell `(i / w, i % w)`. -/
theorem claim_feature_table_layout (a classes : List Int) (bands h w i j : Nat)
    (ha : a.length = bands * (h * w)) (hi : i < h * w) (hj : j < bands)
    (hl : classes.length = h * w) :
    (reshape_raster_for_ml a bands h w).getD (i * bands + j) 0 =
      a.getD (j * (h * w) + (i / w) * w + i % w) 0
    ∧ reshape_ml_out_to_raster classes w h = some classes
    ∧ ∀ out, reshape_ml_out_to_raster classes w h = some out →
        get2 out w (i / w) (i % w) = classes.getD i 0 := by
  refine ⟨reshape_raster_for_ml_getD a bands h w i j hi hj, ?_, ?_⟩
  · rw [reshape_ml_out_to_raster, if_pos hl]
  · intro out hout
    rw [reshape_ml_out_to_raster, if_pos hl] at hout
    cases hout
    have hix : (i / w) * w + i % w = i := by
      calc (i / w) * w + i % w = w * (i / w) + i % w := by ring
        _ = i := Nat.div_add_mod i w
    rw [get2, hix]

/-- Witness for C1 at a concrete `2`-band `2 x 3` raster and sample index 4. -/
theorem claim_feature_table_layout_witness :
    (reshape_raster_for_ml
        [10, 11, 12, 13, 14, 15, 20, 21, 22, 23, 24, 25] 2 2 3).getD
        (4 * 2 + 1) 0 =
      ([10, 11, 12, 13, 14, 15, 20, 21, 22, 23, 24, 25] : List Int).getD
        (1 * (2 * 3) + (4 / 3) * 3 + 4 % 3) 0
    ∧ reshape_ml_out_to_raster [30, 31, 32, 33, 34, 35] 3 2 =
        some [30, 31, 32, 33, 34, 35]
    ∧ get2 [30, 31, 32, 33, 34, 35] 3 (4 / 3) (4 % 3) =
        ([30, 31, 32, 33, 34, 35] : List Int).getD 4 0 := by
  have h := claim_feature_table_layout
    [10, 11, 12, 13, 14, 15, 20, 21, 22, 23, 24, 25]
    [30, 31, 32, 33, 34, 35] 2 2 3 4 1
    (by decide) (by decide) (by decide) (by decide)
  exact ⟨h.1, h.2.1, h.2.2 _ h.2.1⟩

theorem getD_map_range {α : Type} (f : Nat → α) (d : α) (k nc : Nat)
    (h : k < nc) : ((List.range nc).map f).getD k d = f k := by
  have hl : k < ((List.range nc).map f).length := by simpa using h
  rw [List.getD_eq_getElem _ _ hl]
  simp

theorem chunkPlan_getD (n nc k : Nat) (h : k < nc) :
    (chunkPlan n nc).getD k (0, 0) = (chunkOff n nc k, chunkSize n nc k) := by
  rw [chunkPlan, getD_map_range _ _ _ _ h]

theorem chunkPlan_length (n nc : Nat) : (chunkPlan n nc).length = nc := by
  simp [chunkPlan]

/-- Sum of the chunk sizes. -/
theorem chunkPlan_sum (n nc : Nat) (h : 1 ≤ nc) :
    ((chunkPlan n nc).map Prod.snd).sum = n := by
  obtain ⟨m, rfl⟩ : ∃ m, nc = m + 1 := ⟨nc - 1, by omega⟩
  have hdm : n / (m + 1) * (m + 1) ≤ n := Nat.div_mul_le_self n (m + 1)
  have hmap : (chunkPlan n (m + 1)).map Prod.snd =
      List.replicate m (n / (m + 1)) ++
        [n / (m + 1) + (n - n / (m + 1) * (m + 1))] := by
    rw [chunkPlan, List.map_map, List.range_succ, List.map_append]
    congr 1
    · have hbody : ∀ k ∈ List.range m,
          (Prod.snd ∘ fun k => (chunkOff n (m + 1) k, chunkSize n (m + 1) k)) k
            = n / (m + 1) := by
        intro k hk
        have hk' : k < m := List.mem_range.mp hk
        simp only [Function.comp, chunkSize]
        rw [if_neg (by omega)]
      rw [List.map_congr_left hbody, List.map_const']
      simp
    · simp only [Function.comp, List.map_cons, List.map_nil, chunkSize]
      rw [if_pos (by omega)]
  rw [hmap, List.sum_append, List.sum_replicate, smul_eq_mul]
  simp only [List.sum_cons, List.sum_nil]
  have h2 : m * (n / (m + 1)) + n / (m + 1) = n / (m + 1) * (m + 1) := by ring
  omega

/-- Counterexample to C2 as stated: with `n_good_samples = 0` and
`num_chunks = 2` the loop still iterates `num_chunks` times, producing two
empty chunks rather than the single empty chunk the claim describes. -/
theorem claim_chunk_plan_counterexample :
    chunkPlan 0 2 = [(0, 0), (0, 0)] ∧ ¬ (chunkPlan 0 2).length = 1 := by
  constructor
  · rfl
  · decide

/-- C2 (amended): for every `n_good_samples ≥ 0` and `num_chunks ≥ 1` the
plan consists of exactly `num_chunks` contiguous, non-overlapping chunks
whose sizes sum to `n_good_samples`; each of the first `num_chunks - 1`
chunks has size `floor(n / num_chunks)` and the last absorbs the remainder.
When `n_good_samples = 0` every one of the `num_chunks` chunks is empty (the
loop still runs `num_chunks` times; there is no single-empty-chunk special
case). -/
theorem claim_chunk_plan (n nc : Nat) (h : 1 ≤ nc) :
    (chunkPlan n nc).length = nc
    ∧ (∀ k, k < nc - 1 → ((chunkPlan n nc).getD k (0, 0)).2 = n / nc)
    ∧ ((chunkPlan n nc).getD (nc - 1) (0, 0)).2 = n / nc + (n - n / nc * nc)
    ∧ ((chunkPlan n nc).getD 0 (0, 0)).1 = 0
    ∧ (∀ k, k + 1 < nc →
        ((chunkPlan n nc).getD (k + 1) (0, 0)).1 =
          ((chunkPlan n nc).getD k (0, 0)).1 +
            ((chunkPlan n nc).getD k (0, 0)).2)
    ∧ ((chunkPlan n nc).map Prod.snd).sum = n
    ∧ (n = 0 → ∀ k, k < nc → ((chunkPlan n nc).getD k (0, 0)).2 = 0) := by
  refine ⟨chunkPlan_length n nc, ?_, ?_, ?_, ?_, chunkPlan_sum n nc h, ?_⟩
  · intro k hk
    simp only [chunkPlan_getD n nc k (by omega), chunkSize]
    rw [if_neg (by omega : ¬ k = nc - 1)]
  · rw [chunkPlan_getD n nc (nc - 1) (by omega)]
    show chunkSize n nc (nc - 1) = _
    rw [chunkSize, if_pos rfl]
  · simp only [chunkPlan_getD n nc 0 (by omega), chunkOff]
    omega
  · intro k hk
    simp only [chunkPlan_getD n nc (k + 1) (by omega),
      chunkPlan_getD n nc k (by omega), chunkOff, chunkSize]
    rw [if_neg (by omega : ¬ k = nc - 1)]
    ring
  · intro hn k hk
    subst hn
    simp only [chunkPlan_getD 0 nc k hk, chunkSize]
    split <;> simp

/-- Witness for the amended C2 at `n_good_samples = 7`, `num_chunks = 3`. -/
theorem claim_chunk_plan_witness :
    (chunkPlan 7 3).length = 3
    ∧ ((chunkPlan 7 3).getD 1 (0, 0)).2 = 7 / 3
    ∧ ((chunkPlan 7 3).getD 2 (0, 0)).2 = 7 / 3 + (7 - 7 / 3 * 3)
    ∧ ((chunkPlan 7 3).getD 0 (0, 0)).1 = 0
    ∧ ((chunkPlan 7 3).getD 2 (0, 0)).1 =
        ((chunkPlan 7 3).getD 1 (0, 0)).1 + ((chunkPlan 7 3).getD 1 (0, 0)).2
    ∧ ((chunkPlan 7 3).map Prod.snd).sum = 7 := by
  have h := claim_chunk_plan 7 3 (by decide)
  exact ⟨h.1, h.2.1 1 (by decide), h.2.2.1, h.2.2.2.1,
    h.2.2.2.2.1 1 (by decide), h.2.2.2.2.2.1⟩

theorem find?_range'_first (pred : Nat → Bool) :
    ∀ n s k, (List.range' s n).find? pred = some k →
      ∀ j, s ≤ j → j < k → pred j = false := by
  intro n
  induction n with
  | zero => intro s k h; simp at h
  | succ m ih =>
    intro s k h j hsj hjk
    rw [List.range'_succ] at h
    rw [List.find?_cons] at h
    rcases hp : pred s with _ | _
    · rw [hp] at h
      simp only at h
      rcases Nat.eq_or_lt_of_le hsj with h0 | h0
      · subst h0; exact hp
      · exact ih (s + 1) k h j h0 hjk
    · rw [hp] at h
      simp only [Option.some.injEq] at h
      omega

/-- Counterexample to C8 as stated: at `pixels = 2`, `bytes_per_pixel = 1`,
`mem_limit = 2` the smallest qualifying chunk count is `k = 2` (`2 % 2 = 0`
and `2/2*1 = 1 < 2`, while `k = 1` fails the budget), yet `autochunk`
returns `none` because its search range `range(1, pixels)` excludes
`k = pixels`. -/
theorem claim_autochunk_counterexample :
    autochunk 2 1 2 = none ∧ 2 % 2 = 0 ∧ 2 / 2 * 1 < 2 ∧ ¬ 2 / 1 * 1 < 2 := by
  decide

/-- C8 (amended): whenever `autochunk` returns a chunk count `k`, that `k`
is the smallest integer in `[1, pixels)` that evenly divides the pixel count
with `(pixels/k) * bytes_per_pixel < mem_limit`; in particular it never
returns a `k` with `(pixels/k) * bytes_per_pixel >= mem_limit`.  When no
such proper divisor exists — even if `k = pixels` itself would qualify — it
returns `none` instead of a chunk count. -/
theorem claim_autochunk_sound_minimal (p b m k : Nat)
    (h : autochunk p b m = some k) :
    1 ≤ k ∧ k < p ∧ p % k = 0 ∧ p / k * b < m
    ∧ ∀ j, 1 ≤ j → j < k → p % j = 0 → ¬ p / j * b < m := by
  have hmem := List.mem_of_find?_eq_some h
  rw [List.mem_range'_1] at hmem
  have hpred := List.find?_some h
  rw [Bool.and_eq_true, beq_iff_eq, decide_eq_true_eq] at hpred
  refine ⟨hmem.1, by omega, hpred.1, hpred.2, ?_⟩
  intro j hj1 hjk hdvd hlt
  have hjf := find?_range'_first _ (p - 1) 1 k h j hj1 hjk
  rw [Bool.and_eq_false_iff] at hjf
  rcases hjf with hjf | hjf
  · rw [beq_eq_false_iff_ne] at hjf
    exact hjf hdvd
  · rw [decide_eq_false_iff_not] at hjf
    exact hjf hlt

/-- Witness for the amended C8: at `pixels = 6`, `bytes_per_pixel = 1`,
`mem_limit = 4` the function returns `k = 2`, which divides 6, fits the
budget (`3 < 4`), and is minimal (`k = 1` gives `6 ≥ 4`). -/
theorem claim_autochunk_sound_minimal_witness :
    6 % 2 = 0 ∧ 6 / 2 * 1 < 4 := by
  have h := claim_autochunk_sound_minimal 6 1 4 2 (by decide)
  exact ⟨h.2.2.1, h.2.2.2.1⟩

/-- C9: `autochunk`'s divisor search ranges over `k in [1, pixels)` and so
excludes `k = pixels`; for any dataset whose pixel count has no proper
divisor `k` with `(pixels/k) * bytes_per_pixel < mem_limit`, the function
falls off the loop and returns `None` instead of a valid chunk count. -/
theorem claim_autochunk_none (p b m : Nat)
    (h : ∀ j, j < p → 1 ≤ j → ¬(p % j = 0 ∧ p / j * b < m)) :
    autochunk p b m = none := by
  rw [autochunk, List.find?_eq_none]
  intro j hj
  rw [List.mem_range'_1] at hj
  rw [Bool.and_eq_true, beq_iff_eq, decide_eq_true_eq]
  intro hcon
  exact h j (by omega) hj.1 hcon

/-- Witness for C9: a prime pixel count (3) whose whole image exceeds the
memory limit has no qualifying proper divisor, and `autochunk` returns
`none`. -/
theorem claim_autochunk_none_witness : autochunk 3 1 2 = none :=
  claim_autochunk_none 3 1 2 (by decide)

theorem foldl_and_getD (pred : Nat → Nat → Bool) (n : Nat) :
    ∀ (bs : List Nat) (boo : List Bool), boo.length = n →
      (bs.foldl (fun boo b =>
          List.zipWith and boo ((List.range n).map (fun i => pred b i))) boo).length = n
      ∧ ∀ i, i < n →
        (bs.foldl (fun boo b =>
            List.zipWith and boo ((List.range n).map (fun i => pred b i))) boo).getD i false
          = (boo.getD i false && bs.all (fun b => pred b i)) := by
  intro bs
  induction bs with
  | nil =>
    intro boo hlen
    refine ⟨hlen, ?_⟩
    intro i hi
    simp
  | cons b bs ih =>
    intro boo hlen
    have hstep : (List.zipWith and boo
        ((List.range n).map (fun i => pred b i))).length = n := by
      rw [List.length_zipWith]
      simp [hlen]
    obtain ⟨ihlen, ihget⟩ := ih _ hstep
    refine ⟨ihlen, ?_⟩
    intro i hi
    rw [List.foldl_cons, ihget i hi]
    have hzget : (List.zipWith and boo
        ((List.range n).map (fun i => pred b i))).getD i false =
        (boo.getD i false && pred b i) := by
      have hiz : i < (List.zipWith and boo
          ((List.range n).map (fun i => pred b i))).length := by rw [hstep]; exact hi
      rw [List.getD_eq_getElem _ _ hiz, List.getElem_zipWith,
        List.getD_eq_getElem _ _ (by rw [hlen]; exact hi)]
      congr 1
      simp
    rw [hzget, List.all_cons, Bool.and_assoc]

theorem computeMask_length (ft : List Int) (n bands : Nat) (nodata : Int) :
    (computeMask ft n bands nodata).length = n := by
  rw [computeMask]
  exact (foldl_and_getD
    (fun b i => decide (ft.getD (i * bands + (b + 1)) 0 ≠ nodata)) n
    (List.range (bands - 1)) _ (by simp)).1

theorem computeMask_getD (ft : List Int) (n bands : Nat) (nodata : Int)
    (i : Nat) (hi : i < n) :
    (computeMask ft n bands nodata).getD i false =
      (decide (ft.getD (i * bands) 0 ≠ nodata) &&
        (List.range (bands - 1)).all
          (fun b => decide (ft.getD (i * bands + (b + 1)) 0 ≠ nodata))) := by
  rw [computeMask]
  have h := (foldl_and_getD
    (fun b i => decide (ft.getD (i * bands + (b + 1)) 0 ≠ nodata)) n
    (List.range (bands - 1))
    ((List.range n).map (fun i => decide (ft.getD (i * bands) 0 ≠ nodata)))
    (by simp)).2 i hi
  simpa [List.getElem?_range hi] using h

/-- The validity mask marks sample `i` valid iff every band differs from the
sentinel. -/
theorem computeMask_eq_true_iff (ft : List Int) (n bands : Nat) (nodata : Int)
    (i : Nat) (hb : 1 ≤ bands) (hi : i < n) :
    (computeMask ft n bands nodata).getD i false = true ↔
      ∀ b, b < bands → ft.getD (i * bands + b) 0 ≠ nodata := by
  rw [computeMask_getD ft n bands nodata i hi, Bool.and_eq_true,
    decide_eq_true_eq, List.all_eq_true]
  constructor
  · rintro ⟨h0, hrest⟩ b hbb
    rcases b with _ | b'
    · simpa using h0
    · have := hrest b' (List.mem_range.mpr (by omega))
      rw [decide_eq_true_eq] at this
      exact this
  · intro hall
    refine ⟨by simpa using hall 0 hb, ?_⟩
    intro b hbmem
    have hbb : b < bands - 1 := List.mem_range.mp hbmem
    rw [decide_eq_true_eq]
    exact hall (b + 1) (by omega)

/-- C3: a sample is valid iff all of its band values differ from the no-data
sentinel, and setting any single band of a valid sample to the sentinel
flips that sample to invalid. -/
theorem claim_validity_mask (ft : List Int) (n bands : Nat) (nodata : Int)
    (i b : Nat) (hb : 1 ≤ bands) (hi : i < n) (hbb : b < bands)
    (hflen : ft.length = n * bands) :
    ((computeMask ft n bands nodata).getD i false = true ↔
      ∀ b2, b2 < bands → ft.getD (i * bands + b2) 0 ≠ nodata)
    ∧ ((computeMask ft n bands nodata).getD i false = true →
        (computeMask (ft.set (i * bands + b) nodata) n bands nodata).getD i false
          = false) := by
  refine ⟨computeMask_eq_true_iff ft n bands nodata i hb hi, ?_⟩
  intro _
  have hpos : i * bands + b < ft.length := by
    rw [hflen]
    calc i * bands + b < i * bands + bands := by omega
      _ = (i + 1) * bands := by ring
      _ ≤ n * bands := Nat.mul_le_mul_right bands hi
  have hval : (ft.set (i * bands + b) nodata).getD (i * bands + b) 0 = nodata := by
    rw [List.getD_eq_getElem?_getD, List.getElem?_set_self hpos]
    rfl
  rcases hmm : (computeMask (ft.set (i * bands + b) nodata) n bands nodata).getD
      i false with _ | _
  · rfl
  · exfalso
    have hall := (computeMask_eq_true_iff (ft.set (i * bands + b) nodata) n
      bands nodata i hb hi).mp hmm
    exact hall b hbb hval

/-- Witness for C3 at the 2-sample, 2-band feature table `[1, 2, 3, 4]` with
sentinel 0: sample 0 is valid, and setting its band 1 to the sentinel makes
it invalid. -/
theorem claim_validity_mask_witness :
    (computeMask (([1, 2, 3, 4] : List Int).set (0 * 2 + 1) 0) 2 2 0).getD
      0 false = false :=
  (claim_validity_mask [1, 2, 3, 4] 2 2 0 0 1 (by decide) (by decide)
    (by decide) (by decide)).2 (by decide)

theorem mem_goodIndices (mask : List Bool) (i : Nat) :
    i ∈ goodIndices mask ↔ i < mask.length ∧ mask.getD i false = true := by
  rw [goodIndices, List.mem_filter, List.mem_range]

theorem goodIndices_nodup (mask : List Bool) : (goodIndices mask).Nodup :=
  List.Nodup.filter _ (List.nodup_range _)

theorem getD_set_ne {α : Type} (l : List α) (j i : Nat) (v d : α) (h : j ≠ i) :
    (l.set j v).getD i d = l.getD i d := by
  rw [List.getD_eq_getElem?_getD, List.getD_eq_getElem?_getD,
    List.getElem?_set_ne h]

theorem foldl_set_length {α : Type} :
    ∀ (pairs : List (Nat × α)) (buf : List α),
      (pairs.foldl (fun arr iv => arr.set iv.1 iv.2) buf).length = buf.length := by
  intro pairs
  induction pairs with
  | nil => intro buf; rfl
  | cons p tl ih =>
    intro buf
    rw [List.foldl_cons, ih]
    exact List.length_set _ _ _

theorem foldl_set_getD_not_mem {α : Type} (d : α) :
    ∀ (pairs : List (Nat × α)) (buf : List α) (i : Nat),
      i ∉ pairs.map Prod.fst →
      (pairs.foldl (fun arr iv => arr.set iv.1 iv.2) buf).getD i d = buf.getD i d := by
  intro pairs
  induction pairs with
  | nil => intro buf i _; rfl
  | cons p tl ih =>
    intro buf i hnm
    rw [List.map_cons, List.mem_cons] at hnm
    push_neg at hnm
    rw [List.foldl_cons, ih _ i hnm.2, getD_set_ne _ _ _ _ _ (fun h => hnm.1 h.symm)]

theorem foldl_set_getD_hit {α : Type} (d : α) :
    ∀ (pairs : List (Nat × α)) (buf : List α) (k : Nat)
      (hk : k < pairs.length),
      (pairs.map Prod.fst).Nodup →
      (∀ q ∈ pairs, q.1 < buf.length) →
      (pairs.foldl (fun arr iv => arr.set iv.1 iv.2) buf).getD (pairs[k].1) d =
        pairs[k].2 := by
  intro pairs
  induction pairs with
  | nil => intro buf k hk _ _; simp at hk
  | cons p tl ih =>
    intro buf k hk hnd hbd
    rw [List.map_cons, List.nodup_cons] at hnd
    rcases k with _ | k'
    · simp only [List.getElem_cons_zero, List.foldl_cons]
      rw [foldl_set_getD_not_mem d tl _ p.1 hnd.1,
        List.getD_eq_getElem?_getD,
        List.getElem?_set_self (hbd p (List.mem_cons_self p tl))]
      rfl
    · simp only [List.getElem_cons_succ, List.foldl_cons]
      refine ih _ k' (by simpa using hk) hnd.2 ?_
      intro q hq
      rw [List.length_set]
      exact hbd q (List.mem_cons_of_mem p hq)

/-- The class-vector half of the scatter step (classification.py:246-248):
the full-length output vector has one value per original sample; every good
sample's position holds its classification result, and every invalid
sample's position holds the no-data sentinel it was pre-filled with. -/
theorem scatterClass_correct (mask : List Bool) (classes : List Int) (nodata : Int)
    (hlen : classes.length = (goodIndices mask).length) :
    (scatterClass mask.length nodata (goodIndices mask) classes).length =
      mask.length
    ∧ (∀ k, (hk : k < (goodIndices mask).length) →
        (scatterClass mask.length nodata (goodIndices mask) classes).getD
          ((goodIndices mask)[k]) 0 = classes.getD k 0)
    ∧ (∀ i, i < mask.length → mask.getD i false = false →
        (scatterClass mask.length nodata (goodIndices mask) classes).getD
          i 0 = nodata) := by
  have hfst : (((goodIndices mask).zip classes).map Prod.fst) = goodIndices mask :=
    List.map_fst_zip _ _ (by omega)
  have hbd : ∀ q ∈ (goodIndices mask).zip classes,
      q.1 < (List.replicate mask.length nodata).length := by
    intro q hq
    rw [List.length_replicate]
    exact ((mem_goodIndices mask q.1).mp (List.of_mem_zip hq).1).1
  refine ⟨?_, ?_, ?_⟩
  · rw [scatterClass, foldl_set_length, List.length_replicate]
  · intro k hk
    have hkz : k < ((goodIndices mask).zip classes).length := by
      rw [List.length_zip]; omega
    have hnd : (((goodIndices mask).zip classes).map Prod.fst).Nodup := by
      rw [hfst]; exact goodIndices_nodup mask
    have h := foldl_set_getD_hit 0 ((goodIndices mask).zip classes)
      (List.replicate mask.length nodata) k hkz hnd hbd
    rw [List.getElem_zip] at h
    rw [scatterClass, h, List.getD_eq_getElem _ _ (by omega)]
  · intro i hi hmask
    have hnm : i ∉ ((goodIndices mask).zip classes).map Prod.fst := by
      rw [hfst, mem_goodIndices]
      rintro ⟨_, hc⟩
      rw [hmask] at hc
      exact Bool.false_ne_true hc
    rw [scatterClass, foldl_set_getD_not_mem 0 _ _ i hnm,
      List.getD_eq_getElem?_getD, List.getElem?_replicate_of_lt hi]
    rfl

/-- Concrete instance of the class-vector scatter at mask
`[true, false, true]` with classification results `[7, 9]` and sentinel 5:
invalid position 1 retains the sentinel. -/
theorem scatterClass_correct_example :
    (scatterClass 3 5 (goodIndices [true, false, true]) [7, 9]).getD 1 0 = 5 :=
  (scatterClass_correct [true, false, true] [7, 9] 5 (by decide)).2.2 1 (by decide)
    (by decide)

/-- C7 counter-evidence: the probability half of the scatter does not place
the probability row at the good sample's position.  With one valid sample,
sentinel 0 and predicted probability row `[3/10, 7/10]`, the scatter buffer
— integer-dtype because `np.full((n_samples, n_classes_), nodata)` at line
254 omits the `dtype=np.float32` that the line-225 `probs` buffer passes —
stores the truncated row `[0, 0]`, not the probability row.  (The
class-vector half behaves as the claim states.) -/
theorem claim_scatter_prob_truncated :
    scatterProb 1 2 0 (goodIndices [true]) [[3 / 10, 7 / 10]] = [[0, 0]]
    ∧ scatterProb 1 2 0 (goodIndices [true]) [[3 / 10, 7 / 10]] ≠
        [[3 / 10, 7 / 10]] := by
  have h3 : npIntCast (3 / 10) = 0 := by
    rw [npIntCast, if_pos (by norm_num)]
    have hf : ⌊(3 / 10 : ℚ)⌋ = 0 := by
      rw [Int.floor_eq_zero_iff]
      norm_num [Set.mem_Ico]
    rw [hf]
    norm_num
  have h7 : npIntCast (7 / 10) = 0 := by
    rw [npIntCast, if_pos (by norm_num)]
    have hf : ⌊(7 / 10 : ℚ)⌋ = 0 := by
      rw [Int.floor_eq_zero_iff]
      norm_num [Set.mem_Ico]
    rw [hf]
    norm_num
  constructor
  · show [[npIntCast (3 / 10), npIntCast (7 / 10)]] = [[0, 0]]
    rw [h3, h7]
  · show [[npIntCast (3 / 10), npIntCast (7 / 10)]] ≠ [[3 / 10, 7 / 10]]
    rw [h3, h7]
    intro hcon
    have h0 := (List.cons.injEq _ _ _ _).mp hcon
    have h1 := (List.cons.injEq _ _ _ _).mp h0.1
    norm_num at h1

theorem writeSlice_length {α : Type} (arr vals : List α) (off : Nat)
    (h : off + vals.length ≤ arr.length) :
    (writeSlice arr off vals).length = arr.length := by
  rw [writeSlice]
  simp only [List.length_append, List.length_take, List.length_drop]
  omega

theorem writeSlice_getD_lt {α : Type} (arr vals : List α) (off p : Nat) (d : α)
    (hp : p < off) (hoff : off ≤ arr.length) :
    (writeSlice arr off vals).getD p d = arr.getD p d := by
  rw [writeSlice, List.getD_eq_getElem?_getD, List.getD_eq_getElem?_getD]
  rw [List.getElem?_append_left (by
    simp only [List.length_append, List.length_take]
    omega)]
  rw [List.getElem?_append_left (by simp only [List.length_take]; omega)]
  rw [List.getElem?_take_of_lt hp]

theorem writeSlice_getD_mid {α : Type} (arr vals : List α) (off t : Nat) (d : α)
    (ht : t < vals.length) (hoff : off ≤ arr.length) :
    (writeSlice arr off vals).getD (off + t) d = vals.getD t d := by
  rw [writeSlice, List.getD_eq_getElem?_getD, List.getD_eq_getElem?_getD]
  have h1 : (arr.take off).length = off := by
    simp only [List.length_take]; omega
  rw [List.getElem?_append_left (by
    simp only [List.length_append, h1]
    omega)]
  rw [List.getElem?_append_right (by rw [h1]; omega)]
  rw [h1, Nat.add_sub_cancel_left]

/-- Every planned chunk fits inside the good-sample range. -/
theorem chunk_fits (n nc k : Nat) (h1 : 1 ≤ nc) (hk : k < nc) :
    chunkOff n nc k + chunkSize n nc k ≤ n := by
  have hdm : n / nc * nc ≤ n := Nat.div_mul_le_self n nc
  rw [chunkOff, chunkSize]
  by_cases hlast : k = nc - 1
  · rw [if_pos hlast]
    subst hlast
    have h2 : (nc - 1) * (n / nc) + n / nc = nc * (n / nc) := by
      have h3 : nc - 1 + 1 = nc := by omega
      calc (nc - 1) * (n / nc) + n / nc = ((nc - 1) + 1) * (n / nc) := by ring
        _ = nc * (n / nc) := by rw [h3]
    have h4 : nc * (n / nc) = n / nc * nc := Nat.mul_comm nc (n / nc)
    omega
  · rw [if_neg hlast]
    have h2 : k * (n / nc) + n / nc = (k + 1) * (n / nc) := by ring
    have h3 : (k + 1) * (n / nc) ≤ nc * (n / nc) :=
      Nat.mul_le_mul_right _ (by omega)
    have h4 : nc * (n / nc) = n / nc * nc := Nat.mul_comm nc (n / nc)
    omega

/-- A chunk that is not the last one ends where no later chunk begins
before: later chunks start at or after its end. -/
theorem chunk_disjoint (n nc k j : Nat) (hk : k < nc - 1) (hj : k < j) :
    chunkOff n nc k + chunkSize n nc k ≤ chunkOff n nc j := by
  rw [chunkOff, chunkOff, chunkSize, if_neg (by omega : ¬ k = nc - 1)]
  have h2 : k * (n / nc) + n / nc = (k + 1) * (n / nc) := by ring
  have h3 : (k + 1) * (n / nc) ≤ j * (n / nc) :=
    Nat.mul_le_mul_right _ (by omega)
  omega

theorem chunkPlan_getElem (n nc k : Nat) (h : k < (chunkPlan n nc).length) :
    (chunkPlan n nc)[k] = (chunkOff n nc k, chunkSize n nc k) := by
  simp [chunkPlan]

theorem mem_chunkPlan (n nc : Nat) (c : Nat × Nat) (h : c ∈ chunkPlan n nc) :
    ∃ j, j < nc ∧ c = (chunkOff n nc j, chunkSize n nc j) := by
  rw [chunkPlan, List.mem_map] at h
  obtain ⟨j, hj, hc⟩ := h
  exact ⟨j, List.mem_range.mp hj, hc.symm⟩

theorem foldl_writeSlice_length {α : Type} (g : Nat × Nat → List α) (n : Nat) :
    ∀ (l : List (Nat × Nat)) (buf : List α), buf.length = n →
      (∀ c ∈ l, c.1 + (g c).length ≤ n) →
      (l.foldl (fun b c => writeSlice b c.1 (g c)) buf).length = n := by
  intro l
  induction l with
  | nil => intro buf hbuf _; exact hbuf
  | cons c tl ih =>
    intro buf hbuf hfit
    rw [List.foldl_cons]
    refine ih _ ?_ ?_
    · rw [writeSlice_length _ _ _ (by rw [hbuf]; exact hfit c (List.mem_cons_self c tl))]
      exact hbuf
    · intro c2 hc2
      exact hfit c2 (List.mem_cons_of_mem c hc2)

theorem foldl_writeSlice_getD_lt {α : Type} (g : Nat × Nat → List α) (d : α)
    (n m : Nat) :
    ∀ (l : List (Nat × Nat)) (buf : List α), buf.length = n →
      (∀ c ∈ l, m ≤ c.1 ∧ c.1 + (g c).length ≤ n) →
      ∀ p, p < m →
        (l.foldl (fun b c => writeSlice b c.1 (g c)) buf).getD p d =
          buf.getD p d := by
  intro l
  induction l with
  | nil => intro buf _ _ p _; rfl
  | cons c tl ih =>
    intro buf hbuf hfit p hp
    obtain ⟨hm, hfit0⟩ := hfit c (List.mem_cons_self c tl)
    rw [List.foldl_cons]
    rw [ih _ (by rw [writeSlice_length _ _ _ (by omega)]; exact hbuf)
      (fun c2 hc2 => hfit c2 (List.mem_cons_of_mem c hc2)) p hp]
    exact writeSlice_getD_lt _ _ _ _ _ (by omega) (by omega)

/-- C10: predicted class labels are written into an unsigned 8-bit buffer
(numpy `ubyte`), so the value the chunk loop stores for slot `t` of chunk
`k` — a good sample's classification result — equals the model's predicted
label for that sample reduced modulo 256; labels of 256 or more (and nodata
prefills outside `[0, 255]`, see the buffer's `nodata % 256` fill) wrap
silently rather than being preserved or rejected. -/
theorem claim_ubyte_wrap (good : List (List Int))
    (predict : List (List Int) → List Int) (nc : Nat) (nodata : Int)
    (hnc : 1 ≤ nc) (hp : ∀ xs, (predict xs).length = xs.length)
    (k : Nat) (hk : k < nc) (t : Nat)
    (ht : t < chunkSize good.length nc k) :
    (runChunksClass good predict nc nodata).getD
        (chunkOff good.length nc k + t) 0 =
      (predict ((good.drop (chunkOff good.length nc k)).take
        (chunkSize good.length nc k))).getD t 0 % 256 := by
  set n := good.length with hn
  set g : Nat × Nat → List Int :=
    fun c => (predict ((good.drop c.1).take c.2)).map (fun v => v % 256)
    with hg
  have hglen : ∀ c : Nat × Nat, (g c).length = min c.2 (n - c.1) := by
    intro c
    rw [hg]
    simp [hp, hn]
  have hfits : ∀ c ∈ chunkPlan n nc, c.1 + (g c).length ≤ n := by
    intro c hc
    obtain ⟨j, hj, rfl⟩ := mem_chunkPlan n nc c hc
    rw [hglen]
    have := chunk_fits n nc j hnc hj
    simp only
    omega
  have hplanlen : k < (chunkPlan n nc).length := by
    rw [chunkPlan_length]; exact hk
  have hsplit : chunkPlan n nc =
      (chunkPlan n nc).take k ++
        ((chunkPlan n nc)[k] :: (chunkPlan n nc).drop (k + 1)) := by
    rw [← List.drop_eq_getElem_cons hplanlen, List.take_append_drop]
  have hck : (chunkPlan n nc)[k] = (chunkOff n nc k, chunkSize n nc k) :=
    chunkPlan_getElem n nc k hplanlen
  rw [runChunksClass]
  rw [show (fun classes (c : Nat × Nat) =>
      writeSlice classes c.1
        ((predict ((good.drop c.1).take c.2)).map (fun v => v % 256))) =
      (fun b c => writeSlice b c.1 (g c)) from rfl]
  rw [hsplit, List.foldl_append, List.foldl_cons]
  set buf1 := ((chunkPlan n nc).take k).foldl
    (fun b c => writeSlice b c.1 (g c))
    (List.replicate n (nodata % 256)) with hbuf1
  have hbuf1len : buf1.length = n := by
    rw [hbuf1]
    refine foldl_writeSlice_length g n _ _ (by simp) ?_
    intro c hc
    exact hfits c (List.mem_of_mem_take hc)
  have hfitk := chunk_fits n nc k hnc hk
  have hgklen : (g ((chunkPlan n nc)[k])).length = chunkSize n nc k := by
    rw [hck, hglen]
    simp only
    omega
  set buf2 := writeSlice buf1 ((chunkPlan n nc)[k]).1 (g ((chunkPlan n nc)[k]))
    with hbuf2
  have hbuf2len : buf2.length = n := by
    rw [hbuf2, writeSlice_length]
    · exact hbuf1len
    · rw [hgklen, hck, hbuf1len]
      exact hfitk
  have hlater : ∀ c ∈ (chunkPlan n nc).drop (k + 1),
      chunkOff n nc k + chunkSize n nc k ≤ c.1 ∧ c.1 + (g c).length ≤ n := by
    intro c hc
    obtain ⟨i, hi, hci⟩ := List.mem_iff_getElem.mp hc
    have hdlen : ((chunkPlan n nc).drop (k + 1)).length = nc - (k + 1) := by
      rw [List.length_drop, chunkPlan_length]
    have hj : k + 1 + i < nc := by
      rw [hdlen] at hi; omega
    have hjlt : k + 1 + i < (chunkPlan n nc).length := by
      rw [chunkPlan_length]; omega
    have hci2 : c = (chunkPlan n nc)[k + 1 + i] := by
      rw [← hci, List.getElem_drop]
    have hcval : c = (chunkOff n nc (k + 1 + i), chunkSize n nc (k + 1 + i)) := by
      rw [hci2, chunkPlan_getElem]
    constructor
    · rw [hcval]
      exact chunk_disjoint n nc k (k + 1 + i) (by omega) (by omega)
    · refine hfits c ?_
      rw [hci2]
      exact List.getElem_mem _
  have hstep : (((chunkPlan n nc).drop (k + 1)).foldl
      (fun b c => writeSlice b c.1 (g c)) buf2).getD
        (chunkOff n nc k + t) 0 = buf2.getD (chunkOff n nc k + t) 0 :=
    foldl_writeSlice_getD_lt g 0 n (chunkOff n nc k + chunkSize n nc k) _
      buf2 hbuf2len hlater _ (by omega)
  rw [hstep, hbuf2, hck]
  rw [writeSlice_getD_mid _ _ _ _ _ (by rw [hck] at hgklen; rw [hgklen]; exact ht)
    (by rw [hbuf1len]; omega)]
  have htg : t < (g ((chunkOff n nc k, chunkSize n nc k) : Nat × Nat)).length := by
    rw [hck] at hgklen; rw [hgklen]; exact ht
  rw [hg]
  simp only
  have htp : t < (predict ((good.drop (chunkOff n nc k)).take
      (chunkSize n nc k))).length := by
    rw [hg] at htg
    simpa using htg
  rw [List.getD_eq_getElem _ _ (by simpa using htp), List.getElem_map,
    List.getD_eq_getElem _ _ htp]

/-- Witness for C10: a model predicting labels 301-303 on a 3-sample image
split into 2 chunks; the value stored for slot 0 of chunk 1 is the predicted
label reduced modulo 256 (302 becomes 46). -/
theorem claim_ubyte_wrap_witness :
    (runChunksClass [[1], [2], [3]]
        (fun (xs : List (List Int)) => xs.map (fun r => r.getD 0 0 + 300)) 2 0).getD
        (chunkOff 3 2 1 + 0) 0 =
      ((fun (xs : List (List Int)) => xs.map (fun r => r.getD 0 0 + 300))
        ((([[1], [2], [3]] : List (List Int)).drop (chunkOff 3 2 1)).take
          (chunkSize 3 2 1))).getD 0 0 % 256 :=
  claim_ubyte_wrap [[1], [2], [3]]
    (fun (xs : List (List Int)) => xs.map (fun r => r.getD 0 0 + 300)) 2 0
    (by decide) (fun xs => by simp) 1 (by decide) 0 (by decide)

theorem transpose10_replicate (d0 d1 : Nat) (q : Rat) :
    transpose10 (List.replicate (d0 * d1) q) d0 d1 =
      List.replicate (d1 * d0) q := by
  rw [List.eq_replicate_iff]
  constructor
  · simp [transpose10]
  · intro b hb
    rw [transpose10, List.mem_map] at hb
    obtain ⟨t, ht, hbt⟩ := hb
    have htlt : t < d1 * d0 := List.mem_range.mp ht
    have hd0 : 0 < d0 := by
      rcases Nat.eq_zero_or_pos d0 with h0 | h0
      · subst h0; simp at htlt
      · exact h0
    have h1 : t % d0 < d0 := Nat.mod_lt t hd0
    have h2 : t / d0 < d1 := by
      rw [Nat.div_lt_iff_lt_mul hd0]
      exact htlt
    have hpos : (t % d0) * d1 + t / d0 < d0 * d1 := by
      calc (t % d0) * d1 + t / d0 < (t % d0) * d1 + d1 := by omega
        _ = (t % d0 + 1) * d1 := by ring
        _ ≤ d0 * d1 := Nat.mul_le_mul_right d1 h1
    rw [← hbt, List.getD_eq_getElem _ _ (by simpa using hpos),
      List.getElem_replicate]

/-- C6: classifying a raster in which zero samples are valid completes (the
pipeline is a total function of the raster and the model) and produces a
class output vector — and, reshaped, a class output raster — filled
entirely with the no-data sentinel, and a probability output raster filled
with the sentinel in every class layer. -/
theorem claim_zero_valid (img : List Int) (bands h w nc nClasses : Nat)
    (nodata : Int) (predict : List (List Int) → List Int)
    (predict_proba : List (List Int) → List (List Rat))
    (hz : ∀ i, i < h * w →
      (computeMask (reshape_raster_for_ml img bands h w) (h * w) bands
        nodata).getD i false = false) :
    classifyCoreClass img bands h w nc nodata predict =
      List.replicate (h * w) nodata
    ∧ reshape_ml_out_to_raster
        (classifyCoreClass img bands h w nc nodata predict) w h =
        some (List.replicate (h * w) nodata)
    ∧ classifyCoreProb img bands h w nc nClasses nodata predict_proba =
        List.replicate (nClasses * (h * w)) ((nodata : Rat)) := by
  have hgi : goodIndices (computeMask (reshape_raster_for_ml img bands h w)
      (h * w) bands nodata) = [] := by
    rw [goodIndices, List.filter_eq_nil_iff]
    intro i hi
    rw [computeMask_length] at hi
    rw [hz i (List.mem_range.mp hi)]
    simp
  have hclass : classifyCoreClass img bands h w nc nodata predict =
      List.replicate (h * w) nodata := by
    rw [classifyCoreClass]
    simp only [hgi]
    rw [scatterClass]
    simp
  refine ⟨hclass, ?_, ?_⟩
  · rw [hclass, reshape_ml_out_to_raster, if_pos (by simp)]
  · rw [classifyCoreProb]
    simp only [hgi]
    rw [scatterProb]
    simp only [List.zip_nil_left, List.foldl_nil]
    rw [List.flatten_replicate_replicate, reshape_prob_out_to_raster,
      transpose10_replicate]

/-- Witness for C6: a 1-band 1x2 raster that is all sentinel values. -/
theorem claim_zero_valid_witness :
    classifyCoreClass [0, 0] 1 1 2 1 0
        (fun (xs : List (List Int)) => xs.map (fun _ => 7)) =
      List.replicate 2 0
    ∧ reshape_ml_out_to_raster
        (classifyCoreClass [0, 0] 1 1 2 1 0
          (fun (xs : List (List Int)) => xs.map (fun _ => 7))) 2 1 =
        some (List.replicate 2 0)
    ∧ classifyCoreProb [0, 0] 1 1 2 1 3 0
        (fun (xs : List (List Int)) => xs.map (fun _ => [1, 0, 0])) =
        List.replicate (3 * 2) ((0 : Int) : Rat) :=
  claim_zero_valid [0, 0] 1 1 2 1 3 0
    (fun (xs : List (List Int)) => xs.map (fun _ => 7))
    (fun (xs : List (List Int)) => xs.map (fun _ => [1, 0, 0]))
    (by decide)

/-- C4 counter-evidence: for a source raster with the ordinary north-up
geotransform `(0, 1, 0, 10, 0, -1)` and 10 rows, the label grid is created
with geotransform `(0, 1, 0, 0, 0, 1)` — origin moved to the bottom edge
and a positive y pixel size — which is not the source raster's
geotransform; nothing in `shapefile_to_raster` or `get_training_data`
checks the two for equality (the latter only logs the sizes). -/
theorem claim_label_grid_geotransform :
    shapefileTargetGeoTransform (0, 1, 0, 10, 0, -1) 10 = (0, 1, 0, 0, 0, 1)
    ∧ shapefileTargetGeoTransform (0, 1, 0, 10, 0, -1) 10 ≠
        (0, 1, 0, 10, 0, -1) := by
  constructor
  · show (_ : ℚ × ℚ × ℚ × ℚ × ℚ × ℚ) = _
    norm_num [shapefileTargetGeoTransform]
  · intro hcon
    rw [shapefileTargetGeoTransform] at hcon
    have h4 := congrArg (fun t : ℚ × ℚ × ℚ × ℚ × ℚ × ℚ => t.2.2.2.1) hcon
    norm_num at h4

/-- C5 counter-evidence: calling the extractor with the default label
attribute `"CODE"` still burns the `"CLASS"` field — the options list does
not mention the requested attribute. -/
theorem claim_burn_attribute :
    rasterizeLayerOptions "CODE" = ["ATTRIBUTE=CLASS"]
    ∧ rasterizeLayerOptions "CODE" ≠ ["ATTRIBUTE=" ++ "CODE"] := by
  constructor
  · rfl
  · decide

end Pyeo
